import Mathlib

/-!
Verification of the crisper-app document-to-knowledge-graph pipeline.

This file gives a shallow embedding, in Lean 4, of the pure logic of the
Rust sources under `src-tauri/src`:

* `utils.rs` : `sanitize_id`, `chunk_text`
* `llm/extractor.rs` : `clean_and_repair_json`, and the byte-slice
  truncation step of `summarize_document`
* `commands/ingest.rs` : `ingest_documents`, `construct_graph`,
  `save_graph_data` (storage writes modelled as explicit write lists)
* `commands/query.rs` : `fetch_graph_data`

Machine strings are modelled as Lean `String`/`List Char`; UTF-8 byte
indexing is modelled explicitly where the Rust code slices by bytes.
Database writes are modelled as an explicit list of `Write` operations,
and the SurrealDB statements used by the pipeline are embedded as list
operations on an explicit store state.
-/

/-- Whitespace test used by Rust's `str::trim`, modelled as Lean's
`Char.isWhitespace` (space, tab, carriage return, newline). -/
def isWs (c : Char) : Bool := c.isWhitespace

/-- Rust `str::trim` on a character list: drop whitespace from both ends. -/
def trimChars (cs : List Char) : List Char :=
  ((cs.dropWhile isWs).reverse.dropWhile isWs).reverse

/-- Rust `str::trim` lifted to `String`. -/
def trimStr (s : String) : String := ⟨trimChars s.data⟩

/-- Character map from `utils.rs::sanitize_id`: keep alphanumeric characters,
send every other character to an underscore. -/
def underscoreNonAlnum (c : Char) : Char := if c.isAlphanum then c else '_'

/-- Embedding of `utils.rs::sanitize_id` (lines 77-84): the Rust chain
`text.trim().to_lowercase().chars().map(...).collect::<String>()`. -/
def sanitize_id (s : String) : String :=
  ⟨((trimChars s.data).map Char.toLower).map underscoreNonAlnum⟩

/-- Canonicalization as worded by the spec (section 4.4): trim, lowercase,
map every non-alphanumeric character to `_`. -/
def canonicalizeSpec (s : String) : String :=
  ⟨((trimChars s.data).map Char.toLower).map underscoreNonAlnum⟩

-- Basic facts about trimming, lowercasing and the underscore map.

/-!
Chunker (`utils.rs::chunk_text`, lines 58-74).

The Rust loop advances `start` by `chunk_size - overlap` each iteration and
has no guard against `overlap >= chunk_size`; with `overlap = chunk_size`
the advance is zero and the loop never terminates (and with
`overlap > chunk_size` the `usize` subtraction underflows, a panic in debug
builds). The loop is therefore embedded with an explicit fuel parameter:
`none` means the fuel ran out, and a result that is `none` for every fuel
is a non-terminating run of the source loop.
-/

def chunkGo (chars : List Char) (size overlap : Nat) (start : Nat) (fuel : Nat) :
    Option (List String) :=
  match fuel with
  | 0 => if start < chars.length then none else some []
  | fuel + 1 =>
    if start < chars.length then
      let e := min (start + size) chars.length
      let chunk : List Char := (chars.drop start).take (e - start)
      let tail := if e = chars.length then some []
                  else chunkGo chars size overlap (start + (size - overlap)) fuel
      match tail with
      | none => none
      | some rest => some (if trimChars chunk = [] then rest else String.mk chunk :: rest)
    else some []

/-- Embedding of `utils.rs::chunk_text`. Fuel `chars.length` is enough for
every terminating run, because each iteration either ends the loop or
advances `start` by at least one (when `overlap < size`). -/
def chunk_text (text : String) (size overlap : Nat) : Option (List String) :=
  chunkGo text.data size overlap 0 text.data.length

/-!
JSON repair (`llm/extractor.rs::clean_and_repair_json`, lines 222-267).

Step order in the source: trim, strip a leading code fence and a trailing
fence, trim, delete trailing commas before a closing bracket or brace
(regex `,(\s*[\]\x7d])` replaced by the captured closer), delete empty-key
artifacts (regex `\s*""\s*:\s*".*?",?` replaced by nothing), then — only
when the string does not already end in a closing brace — trim trailing
commas and whitespace, append at most one `]` if `[` outnumbers `]`,
append at most one closing brace if the open braces outnumber the closed
ones, and force-append a final closing brace if the string still does not
end in one.

The two regex passes are embedded as left-to-right scans. For the
trailing-comma pass this is equivalent to the non-overlapping replace-all:
a match starts with a comma, and the replacement (whitespace plus closer)
contains no comma, so rescanning the replacement finds no new match. The
empty-key pass replaces matches by the empty string and resumes after the
match, exactly as the scan does.
-/

def leadsWith : List Char → List Char → Bool
  | [], _ => true
  | _ :: _, [] => false
  | p :: ps, c :: cs => p == c && leadsWith ps cs

def findSub (pat : List Char) : List Char → Option Nat
  | [] => if leadsWith pat [] then some 0 else none
  | c :: cs => if leadsWith pat (c :: cs) then some 0 else (findSub pat cs).map (· + 1)

def rfindSub (pat : List Char) : List Char → Option Nat
  | [] => if leadsWith pat [] then some 0 else none
  | c :: cs =>
    match rfindSub pat cs with
    | some i => some (i + 1)
    | none => if leadsWith pat (c :: cs) then some 0 else none

/-- Fence stripping: `find("```json")`, else `find("```")`, drop up to and
including the opening fence; then `rfind("```")` and keep what precedes it. -/
def stripFences (cs : List Char) : List Char :=
  let cs1 := match findSub ("```json".data) cs with
    | some i => cs.drop (i + 7)
    | none => match findSub ("```".data) cs with
      | some i => cs.drop (i + 3)
      | none => cs
  match rfindSub ("```".data) cs1 with
  | some j => cs1.take j
  | none => cs1

/-- Lookahead for the trailing-comma regex: a whitespace run followed by a
closing bracket or closing brace. -/
def wsThenCloser : List Char → Bool
  | [] => false
  | c :: cs => if isWs c then wsThenCloser cs else c == ']' || c == '\x7d'

/-- Replace-all of the trailing-comma regex: a comma directly before
whitespace and a closer is deleted (the closer and whitespace are kept). -/
def remTrailing : List Char → List Char
  | [] => []
  | c :: cs => if c == ',' && wsThenCloser cs then remTrailing cs else c :: remTrailing cs

/-- Scan of the lazy `".*?"` part of the empty-key regex: consume up to and
including the next quote; `.` does not match a newline. -/
def afterQuote : List Char → Option (List Char)
  | [] => none
  | c :: cs => if c == '"' then some cs else if c == '\n' then none else afterQuote cs

/-- Optional comma at the end of the empty-key regex. -/
def dropOneComma (t : List Char) : List Char :=
  match t with
  | c :: rest => if c = ',' then rest else c :: rest
  | [] => []

/-- One attempted match of the empty-key regex `\s*""\s*:\s*".*?",?` at the
head of the input; returns the rest of the input after the match. -/
def matchEmptyKey (cs : List Char) : Option (List Char) :=
  match cs.dropWhile isWs with
  | '"' :: '"' :: t2 =>
    match t2.dropWhile isWs with
    | ':' :: t4 =>
      match t4.dropWhile isWs with
      | '"' :: t6 =>
        match afterQuote t6 with
        | some t7 => some (dropOneComma t7)
        | none => none
      | _ => none
    | _ => none
  | _ => none

/-- Replace-all of the empty-key regex, as a left-to-right scan. The fuel
argument is a termination device only; see `remEmptyKey_eq`. -/
def remEmptyKeyF : Nat → List Char → List Char
  | 0, cs => cs
  | _ + 1, [] => []
  | fuel + 1, c :: cs =>
    match matchEmptyKey (c :: cs) with
    | some rest => remEmptyKeyF fuel rest
    | none => c :: remEmptyKeyF fuel cs

def remEmptyKey (cs : List Char) : List Char := remEmptyKeyF cs.length cs

/-- Rust `trim_end_matches(',')`: drop every trailing comma. -/
def dropTrailingCommas (cs : List Char) : List Char :=
  (cs.reverse.dropWhile (· == ',')).reverse

/-- Step 5 of the repair: when the string does not end in a closing brace,
trim trailing commas and whitespace, count brackets and braces, append the
missing closers (at most one of each), and force a final closing brace. -/
def repairTail (cs : List Char) : List Char :=
  if cs.getLast? = some '\x7d' then cs
  else
    let t := trimChars (dropTrailingCommas cs)
    let t1 := if t.count '[' > t.count ']' then t ++ [']'] else t
    let t2 := if t.count '\x7b' > t.count '\x7d' then t1 ++ ['\x7d'] else t1
    if t2.getLast? = some '\x7d' then t2 else t2 ++ ['\x7d']

/-- Steps 1-4 of `clean_and_repair_json`: trim, strip fences, trim, delete
trailing commas before closers, delete empty-key artifacts. -/
def cleanSteps (cs : List Char) : List Char :=
  remEmptyKey (remTrailing (trimChars (stripFences (trimChars cs))))

/-- Embedding of `llm/extractor.rs::clean_and_repair_json`. -/
def clean_and_repair_json (s : String) : String :=
  ⟨repairTail (cleanSteps s.data)⟩

/-!
Byte-slice truncation in `llm/extractor.rs::summarize_document`
(lines 43-44):

`let truncated_text = if text.len() > 2000 { &text[0..2000] } else { text };`

`text.len()` counts bytes and `&text[0..2000]` slices at byte index 2000;
in Rust this panics when index 2000 is not a UTF-8 character boundary. The
embedding counts bytes with `Char.utf8Size` and returns `none` exactly on
the panicking inputs.
-/

/-- Total UTF-8 byte length of a character list (Rust `str::len`). -/
def byteLen (cs : List Char) : Nat := (cs.map Char.utf8Size).sum

/-- Rust `str::is_char_boundary`: the byte index is the total length of a
prefix of characters. -/
def isCharBoundary : List Char → Nat → Bool
  | _, 0 => true
  | [], _ + 1 => false
  | c :: rest, i + 1 =>
    if c.utf8Size ≤ i + 1 then isCharBoundary rest (i + 1 - c.utf8Size) else false

/-- Characters of the byte-prefix of the given byte length. -/
def byteTake : List Char → Nat → List Char
  | _, 0 => []
  | [], _ + 1 => []
  | c :: rest, i + 1 => if c.utf8Size ≤ i + 1 then c :: byteTake rest (i + 1 - c.utf8Size) else []

/-- Embedding of the truncation step of `summarize_document`: `none` is the
byte-slice panic at a non-boundary index. -/
def summaryTruncate (s : String) : Option String :=
  if byteLen s.data > 2000 then
    if isCharBoundary s.data 2000 then some ⟨byteTake s.data 2000⟩ else none
  else some s

/-!
Store model for the pipeline commands (`commands/ingest.rs`).

A storage write is one SurrealDB call made by the pipeline; a command run
is embedded as the list of writes it performs plus its returned value.
Node timestamps (`Utc::now`) and embedding vectors (always `vec![]` in the
pipeline) are omitted from the records; UUID generation is modelled by a
deterministic id supply (the ids play no role in the claims). Record rows
returned by `SELECT` carry their id, so a stored chunk is modelled with an
`Option String` id exactly like the Rust `ChunkNode.id : Option<Thing>`.
The chunk metadata map is modelled by the fields the pipeline reads and
writes (`title`, `summary`, `tags`, `keywords`, `page_number`,
`step2_processed`); a missing `step2_processed` key is `false`.
-/

structure ChunkMeta where
  title : String
  summary : String
  tags : List String
  keywords : List String
  page_number : Nat
  step2_processed : Bool
deriving DecidableEq

structure ChunkNode where
  id : Option String
  content : String
  page_index : Nat
  metadata : ChunkMeta
deriving DecidableEq

structure EntityNode where
  name : String
  category : String
  description : String
deriving DecidableEq

inductive Write
  | createEvent (id : String) (summary : String)
  | createDocument (id : String) (filename title summary : String)
  | relateImported (eventId docId : String)
  | createChunk (id : String) (c : ChunkNode)
  | relateContains (docId chunkId : String)
  | upsertEntity (key : String) (e : EntityNode)
  | relateMentions (chunkId entityKey : String)
  | updateEntityName (key name : String)
  | relateRelated (headKey tailKey relation reason : String)
  | markProcessed (chunkId : String)
deriving DecidableEq

/-!
Stage 2 (`commands/ingest.rs::construct_graph`, lines 187-283).

Selection is `SELECT * FROM chunk WHERE metadata.step2_processed != true
LIMIT 500`. Per selected chunk: skip it entirely when its id is missing;
collect the trimmed `tags` and `keywords` strings into a set; per
non-empty topic, upsert the entity keyed by `sanitize_id(topic)` and
relate the chunk to it; finally merge `step2_processed = true` into the
chunk's metadata. The `HashSet` iteration order is unspecified in Rust;
the embedding uses first-insertion order, and the claims proved about the
writes are order-insensitive.
-/

def dedupInsert (l : List String) (s : String) : List String :=
  if s ∈ l then l else l ++ [s]

def topicsOf (c : ChunkNode) : List String :=
  (c.metadata.tags.map (fun s => trimStr s)
    ++ c.metadata.keywords.map (fun s => trimStr s)).foldl dedupInsert []

def chunkWrites (c : ChunkNode) : List Write :=
  match c.id with
  | none => []
  | some cid =>
    ((topicsOf c).map (fun topic =>
      if topic = "" then []
      else
        [Write.upsertEntity (sanitize_id topic)
           ⟨topic, "Keyword", "Extracted keyword: " ++ topic⟩,
         Write.relateMentions cid (sanitize_id topic)])).flatten
    ++ [Write.markProcessed cid]

inductive Stage2Result
  | noNewChunks
  | linked (okCount total : Nat)
deriving DecidableEq

def construct_graph (chunks : List ChunkNode) : List Write × Stage2Result :=
  let sel := (chunks.filter (fun c => ! c.metadata.step2_processed)).take 500
  if sel.isEmpty then ([], Stage2Result.noNewChunks)
  else ((sel.map chunkWrites).flatten,
        Stage2Result.linked (sel.countP (fun c => c.id.isSome)) sel.length)

/-- Effect of one write on one stored chunk row: only the
`UPDATE chunk ... MERGE step2_processed = true` call touches chunk rows. -/
def applyWriteChunk (w : Write) (c : ChunkNode) : ChunkNode :=
  match w with
  | Write.markProcessed cid =>
      if c.id = some cid then
        { c with metadata := { c.metadata with step2_processed := true } }
      else c
  | _ => c

def applyAll (ws : List Write) (c : ChunkNode) : ChunkNode :=
  ws.foldl (fun cur w => applyWriteChunk w cur) c

/-- Effect of a write list on the chunk table. -/
def applyWrites (ws : List Write) (chunks : List ChunkNode) : List ChunkNode :=
  ws.foldl (fun cur w => cur.map (applyWriteChunk w)) chunks

/-!
`commands/ingest.rs::save_graph_data` (lines 310-382): per extracted
entity, upsert the node keyed by `sanitize_id(name)` and relate the chunk
to it; per extracted relation, ensure both endpoints exist as placeholders
via `UPDATE type::thing('entity', sanitize_id(...)) SET name = ...`, then
create the `related_to` edge.
-/

structure LlmEntity where
  name : String
  category : String
  summary : String
deriving DecidableEq

structure LlmRelation where
  head : String
  relation : String
  tail : String
  reason : String
deriving DecidableEq

structure LlmExtractionResult where
  entities : List LlmEntity
  relations : List LlmRelation
deriving DecidableEq

def save_graph_data (chunkId : String) (data : LlmExtractionResult) : List Write :=
  (data.entities.map (fun e =>
    [Write.upsertEntity (sanitize_id e.name) ⟨e.name, e.category, e.summary⟩,
     Write.relateMentions chunkId (sanitize_id e.name)])).flatten
  ++ (data.relations.map (fun r =>
    [Write.updateEntityName (sanitize_id r.head) r.head,
     Write.updateEntityName (sanitize_id r.tail) r.tail,
     Write.relateRelated (sanitize_id r.head) (sanitize_id r.tail) r.relation r.reason])).flatten

/-- A write addresses the entity table only through a canonical id
(the image of `sanitize_id`); non-entity writes are unconstrained. -/
def entityKeysCanonical : Write → Prop
  | Write.upsertEntity k _ => ∃ n, k = sanitize_id n
  | Write.relateMentions _ k => ∃ n, k = sanitize_id n
  | Write.updateEntityName k _ => ∃ n, k = sanitize_id n
  | Write.relateRelated h t _ _ => (∃ n, h = sanitize_id n) ∧ (∃ n, t = sanitize_id n)
  | _ => True

/-!
Stage 1 (`commands/ingest.rs::ingest_documents`, lines 36-185).

The directory scan collects entries whose path extension is `pdf`; when
none exist the command returns `Err("No PDF files found.")` before any
write (in particular before the Session/event node is created). Per file:
page extraction failure skips the file (`continue`); an empty page list
skips the file; otherwise one Document node, one `imported` edge, and per
page one summarization call — whose failure is replaced by a default
result (`unwrap_or_else`) — one Chunk node and one `contains` edge. The
two external effects, page extraction (the out-of-scope `PageExtractor`
collaborator) and the LLM summarization call, are oracle parameters;
UUID ids are modelled by a deterministic supply.
-/

structure DocSummaryResult where
  title : String
  summary : String
  tags : List String
  keywords : List String
deriving DecidableEq

/-- Rust `Path::extension`: the characters of the file name after its last
dot; none when there is no dot, or when the last dot is the leading
character (a hidden file like `.pdf` has no extension). -/
def extensionOf (name : String) : Option String :=
  let cs := name.data
  let afterRev := cs.reverse.takeWhile (fun c => ¬ c = '.')
  if afterRev.length = cs.length then none
  else if cs.length - 1 - afterRev.length = 0 then none
  else some ⟨afterRev.reverse⟩

def hasPdfExt (name : String) : Bool := extensionOf name == some "pdf"

def defaultParentSummary (filename : String) : DocSummaryResult :=
  ⟨filename, "Parent Summary Failed", [], []⟩

def defaultPageSummary (i : Nat) : DocSummaryResult :=
  ⟨"Page " ++ toString (i + 1), "요약 실패", [], []⟩

def pageWrites (summ : String → Except String DocSummaryResult)
    (fidx : Nat) (docId : String) : Nat → List String → List Write
  | _, [] => []
  | i, txt :: rest =>
    let res := match summ txt with
      | Except.ok r => r
      | Except.error _ => defaultPageSummary i
    let cid := "chunk" ++ toString fidx ++ "_" ++ toString i
    Write.createChunk cid
        ⟨some cid, txt, i, ⟨res.title, res.summary, res.tags, res.keywords, i + 1, false⟩⟩
      :: Write.relateContains docId cid
      :: pageWrites summ fidx docId (i + 1) rest

def fileWrites (summ : String → Except String DocSummaryResult)
    (extract : String → Except String (List String))
    (sessionId : String) (fidx : Nat) (filename : String) : List Write :=
  match extract filename with
  | Except.error _ => []
  | Except.ok pages =>
    if pages.isEmpty then []
    else
      let ctx := String.intercalate "\n" (pages.take 2)
      let parent := match summ ctx with
        | Except.ok r => r
        | Except.error _ => defaultParentSummary filename
      let docId := "doc" ++ toString fidx
      Write.createDocument docId filename parent.title parent.summary
        :: Write.relateImported sessionId docId
        :: pageWrites summ fidx docId 0 pages

def filesWrites (summ : String → Except String DocSummaryResult)
    (extract : String → Except String (List String))
    (sessionId : String) : Nat → List String → List Write
  | _, [] => []
  | fidx, f :: rest =>
      fileWrites summ extract sessionId fidx f
        ++ filesWrites summ extract sessionId (fidx + 1) rest

/-- A file completes the Stage 1 loop body when its page extraction
succeeds with a non-empty page list. -/
def goodFile (extract : String → Except String (List String)) (filename : String) : Bool :=
  match extract filename with
  | Except.ok pages => !pages.isEmpty
  | Except.error _ => false

inductive Stage1Result
  | processed (n : Nat)
deriving DecidableEq

def ingest_documents (summ : String → Except String DocSummaryResult)
    (extract : String → Except String (List String))
    (path : String) (files : List String) : List Write × Except String Stage1Result :=
  let pdfFiles := files.filter hasPdfExt
  if pdfFiles.length = 0 then ([], Except.error "No PDF files found.")
  else
    (Write.createEvent "session0" ("PDF Ingest: " ++ path)
       :: filesWrites summ extract "session0" 0 pdfFiles,
     Except.ok (Stage1Result.processed (pdfFiles.countP (goodFile extract))))

def isCreateChunk : Write → Bool
  | Write.createChunk _ _ => true
  | _ => false

/-- Pages a file contributes as chunks: zero when extraction fails or the
page list is empty, its page count otherwise. -/
def pageCount (extract : String → Except String (List String)) (filename : String) : Nat :=
  match extract filename with
  | Except.ok pages => if pages.isEmpty then 0 else pages.length
  | Except.error _ => 0

/-!
Graph projection (`commands/query.rs::fetch_graph_data`, lines 38-178).

The source distinguishes only the view mode string `"semantic"`: Document
nodes, Entity nodes and `related_to` links are always returned; Chunk
nodes and the `contains`/`mentions` links are returned whenever the view
mode differs from `"semantic"`. There is no `"knowledge"` branch in the
code. Rows are modelled with the JSON fields the projection reads
(`get_str` defaults a missing field to the empty string, so fields are
plain strings); the `val` node-size float plays no role in the claims and
is omitted.
-/

structure DocRow where
  id : String
  filename : String
deriving DecidableEq

structure ChunkRow where
  id : String
  page_number : Int
  title : String
  content : String
deriving DecidableEq

structure EntityRow where
  id : String
  name : String
  category : String
  description : String
deriving DecidableEq

structure EdgeRow where
  source : String
  target : String
deriving DecidableEq

structure RelRow where
  source : String
  target : String
  relation : String
deriving DecidableEq

structure StoreView where
  documents : List DocRow
  chunks : List ChunkRow
  entities : List EntityRow
  containsEdges : List EdgeRow
  mentionsEdges : List EdgeRow
  relatedEdges : List RelRow
deriving DecidableEq

structure GraphNodeRes where
  id : String
  group : String
  label : String
  info : Option String
deriving DecidableEq

structure GraphLinkRes where
  source : String
  target : String
  label : Option String
deriving DecidableEq

structure GraphResponse where
  nodes : List GraphNodeRes
  links : List GraphLinkRes
deriving DecidableEq

def docNodes (st : StoreView) : List GraphNodeRes :=
  st.documents.filterMap (fun d =>
    if d.id = "" then none
    else some ⟨d.id, "document",
      (if d.filename = "" then "Untitled" else d.filename),
      some "Original PDF Document"⟩)

def chunkNodes (st : StoreView) : List GraphNodeRes :=
  st.chunks.filterMap (fun c =>
    if c.id = "" then none
    else some ⟨c.id, "chunk",
      "p." ++ toString c.page_number ++ ": " ++ c.title,
      some (String.mk (c.content.data.take 50) ++ "...")⟩)

def entityNodes (st : StoreView) : List GraphNodeRes :=
  st.entities.filterMap (fun e =>
    if e.id = "" then none
    else some ⟨e.id, "entity", e.name,
      some ("[" ++ e.category ++ "] " ++ e.description)⟩)

def edgeLinks (es : List EdgeRow) : List GraphLinkRes :=
  es.filterMap (fun e =>
    if e.source = "" ∨ e.target = "" then none
    else some ⟨e.source, e.target, none⟩)

def relatedLinks (rs : List RelRow) : List GraphLinkRes :=
  rs.filterMap (fun r =>
    if r.source = "" ∨ r.target = "" then none
    else some ⟨r.source, r.target, some r.relation⟩)

def fetch_graph_data (st : StoreView) (view_mode : String) : GraphResponse :=
  ⟨docNodes st
    ++ (if view_mode ≠ "semantic" then chunkNodes st else [])
    ++ entityNodes st,
   (if view_mode ≠ "semantic" then edgeLinks st.containsEdges ++ edgeLinks st.mentionsEdges
    else [])
    ++ relatedLinks st.relatedEdges⟩

theorem dropWhile_eq_self_of_all {p : Char → Bool} :
    ∀ {l : List Char}, (∀ c ∈ l, p c = false) → l.dropWhile p = l := by
  intro l h
  cases l with
  | nil => rfl
  | cons a t =>
      rw [List.dropWhile_cons]
      simp [h a (by simp)]

theorem trimChars_eq_self {l : List Char} (h : ∀ c ∈ l, isWs c = false) :
    trimChars l = l := by
  unfold trimChars
  rw [dropWhile_eq_self_of_all h]
  rw [dropWhile_eq_self_of_all (by intro c hc; exact h c (List.mem_reverse.mp hc))]
  exact List.reverse_reverse l

theorem toNat_ofNat_valid {n : Nat} (h : n.isValidChar) : (Char.ofNat n).toNat = n := by
  rw [Char.ofNat, dif_pos h]
  simp [Char.ofNatAux, Char.toNat, UInt32.toNat]

/-- Lowercasing a character twice is the same as lowercasing it once. -/
theorem toLower_idem (c : Char) : Char.toLower (Char.toLower c) = Char.toLower c := by
  simp only [Char.toLower]
  split
  · rename_i h
    have hv : (c.toNat + 32).isValidChar := Or.inl (by omega)
    have ht : (Char.ofNat (c.toNat + 32)).toNat = c.toNat + 32 := toNat_ofNat_valid hv
    rw [ht]
    have hn : ¬ (c.toNat + 32 ≥ 65 ∧ c.toNat + 32 ≤ 90) := by omega
    rw [if_neg hn]
  · rfl

theorem ws_not_alnum {c : Char} (h : isWs c = true) : c.isAlphanum = false := by
  simp only [isWs, Char.isWhitespace, Bool.or_eq_true, decide_eq_true_eq] at h
  rcases h with ((h | h) | h) | h <;> subst h <;> decide

theorem alnum_not_ws {c : Char} (h : c.isAlphanum = true) : isWs c = false := by
  cases hw : isWs c with
  | false => rfl
  | true => rw [ws_not_alnum hw] at h; exact absurd h (by simp)

/-- Every character produced by `sanitize_id`'s underscore map is fixed by
the map itself. -/
theorem underscore_idem (c : Char) :
    underscoreNonAlnum (underscoreNonAlnum c) = underscoreNonAlnum c := by
  unfold underscoreNonAlnum
  cases h : c.isAlphanum with
  | true => simp [h]
  | false => simp [h]

theorem underscore_toLower_fix (c : Char) :
    Char.toLower (underscoreNonAlnum (Char.toLower c)) =
      underscoreNonAlnum (Char.toLower c) := by
  unfold underscoreNonAlnum
  cases h : (Char.toLower c).isAlphanum with
  | true => rw [if_pos rfl]; exact toLower_idem c
  | false => rw [if_neg (by decide)]; decide

theorem underscore_toLower_not_ws (c : Char) :
    isWs (underscoreNonAlnum (Char.toLower c)) = false := by
  unfold underscoreNonAlnum
  cases h : (Char.toLower c).isAlphanum with
  | true => rw [if_pos rfl]; exact alnum_not_ws h
  | false => rw [if_neg (by decide)]; decide

/-- The claim C8: `sanitize_id` is total (a Lean function of type
`String → String`, defined on every string, the empty string included),
agrees with the spec's trim-lowercase-underscore composition, and is
idempotent. Determinism is inherent: it is a pure function. -/
theorem sanitize_id_spec :
    (∀ s : String, sanitize_id s = canonicalizeSpec s)
    ∧ sanitize_id "" = ""
    ∧ (∀ s : String, sanitize_id (sanitize_id s) = sanitize_id s) := by
  refine ⟨fun s => rfl, rfl, fun s => ?_⟩
  unfold sanitize_id
  apply congrArg
  set l := (trimChars s.data).map Char.toLower with hl
  show ((trimChars (l.map underscoreNonAlnum)).map Char.toLower).map underscoreNonAlnum
      = l.map underscoreNonAlnum
  have htrim : trimChars (l.map underscoreNonAlnum) = l.map underscoreNonAlnum := by
    apply trimChars_eq_self
    intro c hc
    rcases List.mem_map.mp hc with ⟨d, hd, rfl⟩
    rcases List.mem_map.mp hd with ⟨e, _, rfl⟩
    exact underscore_toLower_not_ws e
  rw [htrim, List.map_map, List.map_map]
  apply List.map_congr_left
  intro d hd
  rcases List.mem_map.mp hd with ⟨e, _, rfl⟩
  show underscoreNonAlnum (Char.toLower (underscoreNonAlnum (Char.toLower e)))
      = underscoreNonAlnum (Char.toLower e)
  rw [underscore_toLower_fix e]
  exact underscore_idem _

theorem trimChars_eq_nil_iff {l : List Char} :
    trimChars l = [] ↔ ∀ c ∈ l, isWs c = true := by
  unfold trimChars
  constructor
  · intro h c hc
    rw [List.reverse_eq_nil_iff, List.dropWhile_eq_nil_iff] at h
    rcases List.mem_append.mp ((List.takeWhile_append_dropWhile (p := isWs) (l := l)) ▸ hc) with h1 | h1
    · exact List.mem_takeWhile_imp h1
    · exact h c (List.mem_reverse.mpr h1)
  · intro h
    have h1 : l.dropWhile isWs = [] := List.dropWhile_eq_nil_iff.mpr h
    simp [h1]

theorem mem_window {chars : List Char} {s e i : Nat} (hsi : s ≤ i) (hie : i < e)
    (hel : e ≤ chars.length) (hi : i < chars.length) :
    chars.get ⟨i, hi⟩ ∈ (chars.drop s).take (e - s) := by
  have hd1 : i - s < (chars.drop s).length := by
    rw [List.length_drop]; omega
  have hd2 : i - s < ((chars.drop s).take (e - s)).length := by
    rw [List.length_take, List.length_drop]; omega
  have e1 : chars.get ⟨i, hi⟩ = (chars.drop s).get ⟨i - s, hd1⟩ := by
    have := List.getElem_drop' chars (i := s) (j := i - s) (by omega)
    simp only [List.get_eq_getElem]
    rw [← this]
    congr 1
    omega
  have e2 : (chars.drop s).get ⟨i - s, hd1⟩ = ((chars.drop s).take (e - s)).get ⟨i - s, hd2⟩ := by
    simp only [List.get_eq_getElem]
    exact List.getElem_take' _ hd1 (by omega)
  rw [e1, e2]
  exact List.get_mem _ _ _

theorem chunkGo_last {chars : List Char} {size overlap start f : Nat}
    (hlt : start < chars.length) (hend : min (start + size) chars.length = chars.length) :
    chunkGo chars size overlap start (f + 1) =
      some (if trimChars ((chars.drop start).take (min (start + size) chars.length - start)) = []
            then []
            else [String.mk ((chars.drop start).take (min (start + size) chars.length - start))]) := by
  rw [chunkGo]
  simp only [if_pos hlt, if_pos hend]

theorem chunkGo_cont {chars : List Char} {size overlap start f : Nat}
    (hlt : start < chars.length) (hend : ¬ min (start + size) chars.length = chars.length) :
    chunkGo chars size overlap start (f + 1) =
      match chunkGo chars size overlap (start + (size - overlap)) f with
      | none => none
      | some rest =>
          some (if trimChars ((chars.drop start).take (min (start + size) chars.length - start)) = []
                then rest
                else String.mk ((chars.drop start).take (min (start + size) chars.length - start)) :: rest) := by
  rw [chunkGo]
  simp only [if_pos hlt, if_neg hend]

theorem chunkGo_sound (chars : List Char) (size overlap : Nat) (hov : overlap < size) :
    ∀ fuel start, chars.length - start ≤ fuel →
    ∃ cs, chunkGo chars size overlap start fuel = some cs
      ∧ (∀ c ∈ cs, trimChars c.data ≠ [] ∧ ∃ s k, c.data = (chars.drop s).take k)
      ∧ (∀ i, start ≤ i → ∀ (hi : i < chars.length), isWs (chars.get ⟨i, hi⟩) = false →
          ∃ c ∈ cs, chars.get ⟨i, hi⟩ ∈ c.data) := by
  intro fuel
  induction fuel with
  | zero =>
      intro start hle
      have hge : ¬ start < chars.length := by omega
      refine ⟨[], by simp [chunkGo, hge], by simp, ?_⟩
      intro i hsi hi
      omega
  | succ f ih =>
      intro start hle
      by_cases hlt : start < chars.length
      · have hwin : ∀ i, start ≤ i → i < min (start + size) chars.length →
            ∀ (hi : i < chars.length),
            chars.get ⟨i, hi⟩ ∈ (chars.drop start).take (min (start + size) chars.length - start) := by
          intro i hsi hie hi
          exact mem_window hsi hie (by omega) hi
        have hsub : ∃ s k, ((chars.drop start).take (min (start + size) chars.length - start))
            = (chars.drop s).take k := ⟨start, _, rfl⟩
        by_cases hend : min (start + size) chars.length = chars.length
        · -- final window reaches the end of the text
          by_cases htr : trimChars ((chars.drop start).take (min (start + size) chars.length - start)) = []
          · refine ⟨[], ?_, by simp, ?_⟩
            · rw [chunkGo_last hlt hend, if_pos htr]
            · intro i hsi hi hnw
              have hmem := hwin i hsi (by omega) hi
              have := (trimChars_eq_nil_iff.mp htr) _ hmem
              rw [hnw] at this
              exact absurd this (by simp)
          · refine ⟨[String.mk ((chars.drop start).take (min (start + size) chars.length - start))],
              ?_, ?_, ?_⟩
            · rw [chunkGo_last hlt hend, if_neg htr]
            · intro c hc
              rw [List.mem_singleton] at hc
              subst hc
              exact ⟨htr, hsub⟩
            · intro i hsi hi hnw
              exact ⟨_, List.mem_singleton.mpr rfl, hwin i hsi (by omega) hi⟩
        · -- window stops short of the end: the loop continues
          have hstep : 1 ≤ size - overlap := by omega
          have hrec : chars.length - (start + (size - overlap)) ≤ f := by omega
          obtain ⟨cs', hcs', hsubs', hcov'⟩ := ih (start + (size - overlap)) hrec
          by_cases htr : trimChars ((chars.drop start).take (min (start + size) chars.length - start)) = []
          · refine ⟨cs', ?_, hsubs', ?_⟩
            · rw [chunkGo_cont hlt hend, hcs']
              simp only [htr, if_true]
            · intro i hsi hi hnw
              by_cases hie : i < min (start + size) chars.length
              · have hmem := hwin i hsi hie hi
                have := (trimChars_eq_nil_iff.mp htr) _ hmem
                rw [hnw] at this
                exact absurd this (by simp)
              · exact hcov' i (by omega) hi hnw
          · refine ⟨String.mk ((chars.drop start).take (min (start + size) chars.length - start)) :: cs',
              ?_, ?_, ?_⟩
            · rw [chunkGo_cont hlt hend, hcs']
              simp only [if_neg htr]
            · intro c hc
              rcases List.mem_cons.mp hc with hc | hc
              · subst hc; exact ⟨htr, hsub⟩
              · exact hsubs' c hc
            · intro i hsi hi hnw
              by_cases hie : i < min (start + size) chars.length
              · exact ⟨_, List.mem_cons_self _ _, hwin i hsi hie hi⟩
              · obtain ⟨c, hc, hm⟩ := hcov' i (by omega) hi hnw
                exact ⟨c, List.mem_cons_of_mem _ hc, hm⟩
      · refine ⟨[], ?_, by simp, ?_⟩
        · rw [chunkGo]; simp [hlt]
        · intro i hsi hi
          omega

/-- The claim C4: the source `chunk_text` has no guard for
`overlap >= size`. At `text = "abcd"`, `size = overlap = 2` the advance
`size - overlap` is zero, `start` stays `0 < 4`, and the window never
reaches the end: the loop runs forever (modelled: no amount of fuel makes
the loop finish), instead of failing fast with a configuration error. -/
theorem chunk_text_overlap_eq_size_diverges :
    (∀ fuel, chunkGo "abcd".data 2 2 0 fuel = none) ∧ chunk_text "abcd" 2 2 = none := by
  constructor
  · intro fuel
    induction fuel with
    | zero => decide
    | succ f ih =>
        rw [chunkGo]
        simp only [ih]
        decide
  · show chunkGo "abcd".data 2 2 0 "abcd".data.length = none
    induction ("abcd".data.length) with
    | zero => decide
    | succ f ih =>
        rw [chunkGo]
        simp only [ih]
        decide

/-- Counterexample to the claim C5 as stated. First, not every character of
the text is covered by a returned chunk: on `"a "` with `size = 1`,
`overlap = 0` the second window `" "` trims to empty and is dropped, so the
space character belongs to no returned chunk. Second, the returned chunks
are not trimmed strings: on `"b "` with `size = 2` the chunk `"b "` is
returned with its trailing space. -/
theorem chunk_text_contract_cex :
    chunk_text "a " 1 0 = some ["a"]
    ∧ (' ' ∈ "a ".data ∧ ∀ c ∈ ["a"], ' ' ∉ c.data)
    ∧ chunk_text "b " 2 0 = some ["b "]
    ∧ trimStr "b " ≠ "b " := by
  refine ⟨by decide, ⟨by decide, by decide⟩, by decide, by decide⟩

/-- The claim C5, amended: for `size > 0` and `0 ≤ overlap < size` the
chunker terminates and returns chunks that are contiguous substrings of the
text, each non-empty after trimming (but not themselves trimmed), and every
non-whitespace character of the text is covered by some returned chunk
(all-whitespace windows are dropped, so whitespace characters may be
uncovered). -/
theorem chunk_text_contract (text : String) (size overlap : Nat)
    (_hsz : 0 < size) (hov : overlap < size) :
    ∃ cs, chunk_text text size overlap = some cs
      ∧ (∀ c ∈ cs, trimChars c.data ≠ [] ∧ ∃ u v, text.data = u ++ c.data ++ v)
      ∧ (∀ i, ∀ (hi : i < text.data.length), isWs (text.data.get ⟨i, hi⟩) = false →
          ∃ c ∈ cs, text.data.get ⟨i, hi⟩ ∈ c.data) := by
  obtain ⟨cs, h1, h2, h3⟩ := chunkGo_sound text.data size overlap hov text.data.length 0 (by omega)
  refine ⟨cs, h1, ?_, fun i hi hnw => h3 i (by omega) hi hnw⟩
  intro c hc
  obtain ⟨htr, s, k, hck⟩ := h2 c hc
  refine ⟨htr, text.data.take s, (text.data.drop s).drop k, ?_⟩
  rw [hck]
  have h4 : (text.data.drop s).take k ++ (text.data.drop s).drop k = text.data.drop s :=
    List.take_append_drop _ _
  calc text.data = text.data.take s ++ text.data.drop s := (List.take_append_drop _ _).symm
    _ = text.data.take s ++ ((text.data.drop s).take k ++ (text.data.drop s).drop k) := by
        rw [h4]
    _ = text.data.take s ++ (text.data.drop s).take k ++ (text.data.drop s).drop k := by
        rw [List.append_assoc]

/-- Witness for the amended C5 at a concrete input. -/
theorem chunk_text_contract_witness :
    ∃ cs, chunk_text "hello world" 4 1 = some cs
      ∧ (∀ c ∈ cs, trimChars c.data ≠ [] ∧ ∃ u v, "hello world".data = u ++ c.data ++ v)
      ∧ (∀ i, ∀ (hi : i < "hello world".data.length),
          isWs ("hello world".data.get ⟨i, hi⟩) = false →
          ∃ c ∈ cs, "hello world".data.get ⟨i, hi⟩ ∈ c.data) :=
  chunk_text_contract "hello world" 4 1 (by decide) (by decide)

theorem afterQuote_length_lt : ∀ {cs rest : List Char}, afterQuote cs = some rest →
    rest.length < cs.length := by
  intro cs
  induction cs with
  | nil => intro rest h; simp [afterQuote] at h
  | cons c t ih =>
      intro rest h
      rw [afterQuote] at h
      by_cases h1 : c == '"'
      · rw [if_pos h1] at h
        cases h
        simp
      · rw [if_neg h1] at h
        by_cases h2 : c == '\n'
        · rw [if_pos h2] at h; cases h
        · rw [if_neg h2] at h
          have := ih h
          simp only [List.length_cons]
          omega

theorem dropOneComma_length_le (t : List Char) : (dropOneComma t).length ≤ t.length := by
  cases t with
  | nil => exact Nat.le_refl _
  | cons c rest =>
      rw [dropOneComma]
      by_cases hc : c = ','
      · rw [if_pos hc]; simp
      · rw [if_neg hc]

theorem dropWhile_isWs_cons_length {l t : List Char} {c : Char}
    (h : l.dropWhile isWs = c :: t) : t.length + 1 ≤ l.length := by
  have hsub : List.Sublist (l.dropWhile isWs) l := List.dropWhile_sublist _
  have := hsub.length_le
  rw [h] at this
  simpa using this

theorem matchEmptyKey_length_lt {cs rest : List Char} (h : matchEmptyKey cs = some rest) :
    rest.length < cs.length := by
  rw [matchEmptyKey] at h
  split at h
  · rename_i t2 h1
    split at h
    · rename_i t4 h2
      split at h
      · rename_i t6 h3
        split at h
        · rename_i t7 h4
          cases h
          have l1 := dropWhile_isWs_cons_length h1
          have l2 := dropWhile_isWs_cons_length h2
          have l3 := dropWhile_isWs_cons_length h3
          have l4 := afterQuote_length_lt h4
          have l5 := dropOneComma_length_le t7
          simp only [List.length_cons] at l1 l3 l4 ⊢
          omega
        · cases h
      · cases h
    · cases h
  · cases h

theorem remEmptyKeyF_fuel_irrelevant :
    ∀ f1 f2 (cs : List Char), cs.length ≤ f1 → cs.length ≤ f2 →
      remEmptyKeyF f1 cs = remEmptyKeyF f2 cs := by
  intro f1
  induction f1 with
  | zero =>
      intro f2 cs h1 h2
      have : cs = [] := List.length_eq_zero.mp (by omega)
      subst this
      cases f2 <;> rfl
  | succ f ih =>
      intro f2 cs h1 h2
      cases cs with
      | nil => cases f2 <;> rfl
      | cons c cs' =>
          cases f2 with
          | zero => simp at h2
          | succ f2' =>
              cases hm : matchEmptyKey (c :: cs') with
              | some rest =>
                  have hlt := matchEmptyKey_length_lt hm
                  simp only [List.length_cons] at hlt h1 h2
                  simp only [remEmptyKeyF, hm]
                  exact ih f2' rest (by omega) (by omega)
              | none =>
                  simp only [List.length_cons] at h1 h2
                  simp only [remEmptyKeyF, hm]
                  rw [ih f2' cs' (by omega) (by omega)]

/-- The fuel in `remEmptyKey` is immaterial: the scan satisfies the
fuel-free recursion of the replace-all loop (each step consumes at least
one character, so `cs.length` is always enough fuel). -/
theorem remEmptyKey_eq (cs : List Char) : remEmptyKey cs =
    match matchEmptyKey cs with
    | some rest => remEmptyKey rest
    | none => match cs with | [] => [] | c :: cs' => c :: remEmptyKey cs' := by
  unfold remEmptyKey
  cases cs with
  | nil => rfl
  | cons c cs' =>
      simp only [List.length_cons]
      cases hm : matchEmptyKey (c :: cs') with
      | some rest =>
          have hlt := matchEmptyKey_length_lt hm
          simp only [List.length_cons] at hlt
          simp only [remEmptyKeyF, hm]
          exact remEmptyKeyF_fuel_irrelevant cs'.length rest.length rest (by omega) (by omega)
      | none =>
          simp only [remEmptyKeyF, hm]

theorem getLast_append_singleton {l : List Char} {c : Char} :
    (l ++ [c]).getLast? = some c := by
  simp [List.getLast?_append]

/-- Counterexample to the claim C3 as stated. The repair appends at most
one `]` and one closing brace, so an object missing two closing brackets
stays unbalanced: on `\x7b"a": [[1` the output is `\x7b"a": [[1]\x7d`,
with two `[` but one `]`. Moreover an input that already ends in a closing
brace is returned untouched even when braces are unbalanced:
`\x7b"a": \x7b"b": 1\x7d` is returned as is, with two open braces and one
closing brace. -/
theorem clean_and_repair_json_cex :
    clean_and_repair_json "\x7b\"a\": [[1" = "\x7b\"a\": [[1]\x7d"
    ∧ (clean_and_repair_json "\x7b\"a\": [[1").data.count '['
        ≠ (clean_and_repair_json "\x7b\"a\": [[1").data.count ']'
    ∧ clean_and_repair_json "\x7b\"a\": \x7b\"b\": 1\x7d" = "\x7b\"a\": \x7b\"b\": 1\x7d"
    ∧ (clean_and_repair_json "\x7b\"a\": \x7b\"b\": 1\x7d").data.count '\x7b'
        ≠ (clean_and_repair_json "\x7b\"a\": \x7b\"b\": 1\x7d").data.count '\x7d' := by
  refine ⟨by decide, by decide, by decide, by decide⟩

/-- The claim C3, amended: the repair balances the bracket and brace counts
provided the cleaned string does not already end in a closing brace, is
missing exactly one closing brace, and is missing at most one closing
bracket (the counts taken after the comma-and-whitespace trim of step 5). -/
theorem clean_and_repair_json_balances (s : String)
    (h0 : (cleanSteps s.data).getLast? ≠ some '\x7d')
    (hbrace : (trimChars (dropTrailingCommas (cleanSteps s.data))).count '\x7b'
        = (trimChars (dropTrailingCommas (cleanSteps s.data))).count '\x7d' + 1)
    (hbrack : (trimChars (dropTrailingCommas (cleanSteps s.data))).count '['
        = (trimChars (dropTrailingCommas (cleanSteps s.data))).count ']' + 1
      ∨ (trimChars (dropTrailingCommas (cleanSteps s.data))).count '['
        = (trimChars (dropTrailingCommas (cleanSteps s.data))).count ']') :
    (clean_and_repair_json s).data.count '\x7b' = (clean_and_repair_json s).data.count '\x7d'
    ∧ (clean_and_repair_json s).data.count '[' = (clean_and_repair_json s).data.count ']' := by
  unfold clean_and_repair_json repairTail
  rw [if_neg h0]
  simp only []
  set t := trimChars (dropTrailingCommas (cleanSteps s.data)) with ht
  rcases hbrack with hk | hk
  · have hc1 : t.count '[' > t.count ']' := by omega
    have hc2 : t.count '\x7b' > t.count '\x7d' := by omega
    rw [if_pos hc1, if_pos hc2, getLast_append_singleton, if_pos rfl]
    constructor <;> simp [List.count_append] <;> omega
  · have hc1 : ¬ t.count '[' > t.count ']' := by omega
    have hc2 : t.count '\x7b' > t.count '\x7d' := by omega
    rw [if_neg hc1, if_pos hc2, getLast_append_singleton, if_pos rfl]
    constructor <;> simp [List.count_append] <;> omega

/-- Witness for the amended C3 at the concrete truncated object
`\x7b"a": [1`, repaired to `\x7b"a": [1]\x7d` with balanced counts. -/
theorem clean_and_repair_json_balances_witness :
    (clean_and_repair_json "\x7b\"a\": [1").data.count '\x7b'
      = (clean_and_repair_json "\x7b\"a\": [1").data.count '\x7d'
    ∧ (clean_and_repair_json "\x7b\"a\": [1").data.count '['
      = (clean_and_repair_json "\x7b\"a\": [1").data.count ']' :=
  clean_and_repair_json_balances "\x7b\"a\": [1" (by decide) (by decide) (Or.inl (by decide))

theorem byteLen_append (l1 l2 : List Char) : byteLen (l1 ++ l2) = byteLen l1 + byteLen l2 := by
  unfold byteLen
  rw [List.map_append, List.sum_append]

theorem byteLen_replicate_a (n : Nat) : byteLen (List.replicate n 'a') = n := by
  induction n with
  | zero => rfl
  | succ n ih =>
      rw [List.replicate_succ]
      unfold byteLen at ih ⊢
      simp only [List.map_cons, List.sum_cons, ih]
      have h2 : Char.utf8Size 'a' = 1 := by decide
      omega

theorem isCharBoundary_replicate_a (l : List Char) :
    ∀ n k, isCharBoundary (List.replicate n 'a' ++ l) (n + k) = isCharBoundary l k := by
  intro n
  induction n with
  | zero => intro k; simp
  | succ n ih =>
      intro k
      have h1 : n + 1 + k = (n + k) + 1 := by omega
      rw [List.replicate_succ, h1, List.cons_append, isCharBoundary]
      have h2 : Char.utf8Size 'a' = 1 := by decide
      rw [h2, if_pos (by omega)]
      have h3 : n + k + 1 - 1 = n + k := by omega
      rw [h3]
      exact ih k

/-- Counterexample to the claim C9: 1999 ASCII characters followed by the
three-byte character `'한'` give a 2002-byte string whose byte index 2000
falls inside the final character; the slice `&text[0..2000]` panics there
(the embedding returns `none`). -/
theorem summarize_truncation_cex :
    summaryTruncate (String.mk (List.replicate 1999 'a' ++ ['한'])) = none := by
  unfold summaryTruncate
  have hlen : byteLen (List.replicate 1999 'a' ++ ['한']) = 2002 := by
    rw [byteLen_append, byteLen_replicate_a]
    decide
  have hbound : isCharBoundary (List.replicate 1999 'a' ++ ['한']) 2000 = false := by
    have h1 : (2000 : Nat) = 1999 + 1 := by omega
    rw [h1, isCharBoundary_replicate_a]
    decide
  show (if byteLen (List.replicate 1999 'a' ++ ['한']) > 2000 then _ else _) = none
  rw [hlen, if_pos (by omega), hbound]
  simp

theorem byteLen_of_ascii {l : List Char} (h : ∀ c ∈ l, Char.utf8Size c = 1) :
    byteLen l = l.length := by
  induction l with
  | nil => rfl
  | cons c rest ih =>
      unfold byteLen at ih ⊢
      simp only [List.map_cons, List.sum_cons, List.length_cons]
      rw [h c (by simp), ih (fun d hd => h d (by simp [hd]))]
      omega

theorem isCharBoundary_of_ascii :
    ∀ (l : List Char), ∀ i, (∀ c ∈ l, Char.utf8Size c = 1) → i ≤ l.length →
      isCharBoundary l i = true := by
  intro l
  induction l with
  | nil =>
      intro i _ hi
      have : i = 0 := by simpa using hi
      subst this
      rfl
  | cons c rest ih =>
      intro i h hi
      cases i with
      | zero => rfl
      | succ j =>
          rw [isCharBoundary, h c (by simp), if_pos (by omega)]
          have h3 : j + 1 - 1 = j := by omega
          rw [h3]
          exact ih j (fun d hd => h d (by simp [hd])) (by simpa using hi)

/-- The claim C9, amended: the truncation step never panics on inputs all
of whose characters are single-byte (ASCII range), but it is not total —
there are multi-byte UTF-8 inputs on which the byte slice panics (see the
counterexample). -/
theorem summarize_truncation_ascii (s : String) (h : ∀ c ∈ s.data, Char.utf8Size c = 1) :
    (summaryTruncate s).isSome = true := by
  unfold summaryTruncate
  by_cases hl : byteLen s.data > 2000
  · rw [if_pos hl]
    have hble : byteLen s.data = s.data.length := byteLen_of_ascii h
    rw [isCharBoundary_of_ascii s.data 2000 h (by omega)]
    simp
  · rw [if_neg hl]
    rfl

/-- Witness for the amended C9 at a concrete ASCII input. -/
theorem summarize_truncation_ascii_witness :
    (summaryTruncate "hello").isSome = true :=
  summarize_truncation_ascii "hello" (by decide)

theorem applyAll_cons (w : Write) (ws : List Write) (c : ChunkNode) :
    applyAll (w :: ws) c = applyAll ws (applyWriteChunk w c) := rfl

theorem applyWrites_eq_map :
    ∀ (ws : List Write) (chunks : List ChunkNode),
      applyWrites ws chunks = chunks.map (applyAll ws) := by
  intro ws
  induction ws with
  | nil =>
      intro chunks
      calc applyWrites [] chunks = chunks := rfl
        _ = chunks.map id := (List.map_id chunks).symm
        _ = chunks.map (applyAll []) := List.map_congr_left (fun c _ => rfl)
  | cons w ws ih =>
      intro chunks
      show applyWrites ws (chunks.map (applyWriteChunk w)) = _
      rw [ih, List.map_map]
      apply List.map_congr_left
      intro c _
      rfl

theorem applyWriteChunk_id (w : Write) (c : ChunkNode) :
    (applyWriteChunk w c).id = c.id := by
  cases w <;> simp [applyWriteChunk]
  split <;> rfl

theorem applyWriteChunk_keeps_processed {w : Write} {c : ChunkNode}
    (h : c.metadata.step2_processed = true) :
    (applyWriteChunk w c).metadata.step2_processed = true := by
  cases w <;> simp [applyWriteChunk, h]
  split <;> simp [h]

theorem applyAll_processed :
    ∀ (ws : List Write) (c : ChunkNode),
      (c.metadata.step2_processed = true
        ∨ ∃ cid, c.id = some cid ∧ Write.markProcessed cid ∈ ws) →
      (applyAll ws c).metadata.step2_processed = true := by
  intro ws
  induction ws with
  | nil =>
      intro c h
      rcases h with h | ⟨cid, _, hmem⟩
      · exact h
      · exact absurd hmem (List.not_mem_nil _)
  | cons w ws ih =>
      intro c h
      rw [applyAll_cons]
      rcases h with h | ⟨cid, hid, hmem⟩
      · exact ih _ (Or.inl (applyWriteChunk_keeps_processed h))
      · rcases List.mem_cons.mp hmem with hw | hw
        · subst hw
          apply ih
          left
          simp only [applyWriteChunk]
          rw [if_pos hid]
        · exact ih _ (Or.inr ⟨cid, (applyWriteChunk_id w c).symm ▸ hid, hw⟩)

theorem chunkWrites_mark {c : ChunkNode} {cid : String} (h : c.id = some cid) :
    Write.markProcessed cid ∈ chunkWrites c := by
  unfold chunkWrites
  rw [h]
  exact List.mem_append_right _ (List.mem_singleton.mpr rfl)

theorem construct_graph_all_processed {chunks : List ChunkNode}
    (h : ∀ c ∈ chunks, c.metadata.step2_processed = true) :
    construct_graph chunks = ([], Stage2Result.noNewChunks) := by
  unfold construct_graph
  have hfil : chunks.filter (fun c => ! c.metadata.step2_processed) = [] := by
    rw [List.filter_eq_nil_iff]
    intro c hc
    simp [h c hc]
  rw [hfil]
  rfl

/-- The claim C1: on a store in which every chunk carries
`step2_processed = true`, `construct_graph` performs zero writes and
returns the no-new-chunks summary; and running it twice in a row (the
second run on the store updated by the first run's writes) makes the
second run a pure no-op, because the selection filter excludes processed
chunks and each selected chunk is marked processed. The hypotheses say
every stored chunk row has an id (rows returned by `SELECT` always do; an
id-less row would be skipped without being marked) and that the unprocessed
chunks fit in the `LIMIT 500` batch (a larger backlog is left for later
batches by design). -/
theorem construct_graph_idempotent (chunks : List ChunkNode)
    (hid : ∀ c ∈ chunks, c.id.isSome = true)
    (hcnt : (chunks.filter (fun c => ! c.metadata.step2_processed)).length ≤ 500) :
    ((∀ c ∈ chunks, c.metadata.step2_processed = true) →
        construct_graph chunks = ([], Stage2Result.noNewChunks))
    ∧ construct_graph (applyWrites (construct_graph chunks).1 chunks)
        = ([], Stage2Result.noNewChunks) := by
  constructor
  · exact construct_graph_all_processed
  · by_cases hsel : ((chunks.filter (fun c => ! c.metadata.step2_processed)).take 500).isEmpty
    · -- selection empty: first run wrote nothing, and every chunk was processed
      have hfil : chunks.filter (fun c => ! c.metadata.step2_processed) = [] := by
        rcases List.take_eq_nil_iff.mp (List.isEmpty_iff.mp hsel) with h | h
        · omega
        · exact h
      have hall : ∀ c ∈ chunks, c.metadata.step2_processed = true := by
        intro c hc
        by_contra hnp
        have : c ∈ chunks.filter (fun c => ! c.metadata.step2_processed) := by
          rw [List.mem_filter]
          exact ⟨hc, by simp [hnp]⟩
        rw [hfil] at this
        exact absurd this (List.not_mem_nil _)
      have h1 : construct_graph chunks = ([], Stage2Result.noNewChunks) :=
        construct_graph_all_processed hall
      rw [h1]
      show construct_graph (applyWrites [] chunks) = _
      have : applyWrites [] chunks = chunks := rfl
      rw [this]
      exact h1
    · -- selection non-empty: every selected chunk is marked processed
      have htake : (chunks.filter (fun c => ! c.metadata.step2_processed)).take 500
          = chunks.filter (fun c => ! c.metadata.step2_processed) :=
        List.take_of_length_le hcnt
      have hws : (construct_graph chunks).1
          = (((chunks.filter (fun c => ! c.metadata.step2_processed)).take 500).map
              chunkWrites).flatten := by
        unfold construct_graph
        rw [if_neg (by simpa using hsel)]
      apply construct_graph_all_processed
      intro c' hc'
      rw [applyWrites_eq_map] at hc'
      rcases List.mem_map.mp hc' with ⟨c, hc, rfl⟩
      apply applyAll_processed
      by_cases hp : c.metadata.step2_processed = true
      · exact Or.inl hp
      · right
        rcases Option.isSome_iff_exists.mp (hid c hc) with ⟨cid, hcid⟩
        refine ⟨cid, hcid, ?_⟩
        rw [hws]
        apply List.mem_flatten_of_mem (l := chunkWrites c)
        · apply List.mem_map_of_mem
          rw [htake, List.mem_filter]
          exact ⟨hc, by simp [hp]⟩
        · exact chunkWrites_mark hcid

/-- Witness for C1 at a one-chunk store. -/
theorem construct_graph_idempotent_witness :
    ((∀ c ∈ [ChunkNode.mk (some "c1") "body" 0 ⟨"T", "S", ["Rust"], ["Lean"], 1, false⟩],
        c.metadata.step2_processed = true) →
      construct_graph [ChunkNode.mk (some "c1") "body" 0 ⟨"T", "S", ["Rust"], ["Lean"], 1, false⟩]
        = ([], Stage2Result.noNewChunks))
    ∧ construct_graph
        (applyWrites
          (construct_graph
            [ChunkNode.mk (some "c1") "body" 0 ⟨"T", "S", ["Rust"], ["Lean"], 1, false⟩]).1
          [ChunkNode.mk (some "c1") "body" 0 ⟨"T", "S", ["Rust"], ["Lean"], 1, false⟩])
        = ([], Stage2Result.noNewChunks) :=
  construct_graph_idempotent
    [ChunkNode.mk (some "c1") "body" 0 ⟨"T", "S", ["Rust"], ["Lean"], 1, false⟩]
    (by decide) (by decide)

/-- The claim C2: names whose normalized forms (trim, lowercase,
non-alphanumeric to underscore) agree get the same canonical id, and every
entity-table write of the pipeline — the keyword upsert and mentions edge
of `construct_graph`, and the entity upsert, mentions edge, placeholder
update and relation edge of `save_graph_data` — is keyed by the canonical
id of some free-text name, so equal-normalized names resolve to the same
stored node and entities are upserted, never duplicated. -/
theorem entity_writes_canonical :
    (∀ n1 n2 : String, canonicalizeSpec n1 = canonicalizeSpec n2 →
        sanitize_id n1 = sanitize_id n2)
    ∧ (∀ chunks : List ChunkNode, ∀ w ∈ (construct_graph chunks).1, entityKeysCanonical w)
    ∧ (∀ (cid : String) (data : LlmExtractionResult),
        ∀ w ∈ save_graph_data cid data, entityKeysCanonical w) := by
  refine ⟨fun n1 n2 h => h, ?_, ?_⟩
  · intro chunks w hw
    unfold construct_graph at hw
    by_cases hsel : ((chunks.filter (fun c => ! c.metadata.step2_processed)).take 500).isEmpty
    · rw [if_pos hsel] at hw
      exact absurd hw (List.not_mem_nil _)
    · rw [if_neg hsel] at hw
      rcases List.mem_flatten.mp hw with ⟨l, hl, hwl⟩
      rcases List.mem_map.mp hl with ⟨c, _, rfl⟩
      unfold chunkWrites at hwl
      rcases hcid : c.id with _ | cid
      · rw [hcid] at hwl
        exact absurd hwl (List.not_mem_nil _)
      · rw [hcid] at hwl
        rcases List.mem_append.mp hwl with hwl | hwl
        · rcases List.mem_flatten.mp hwl with ⟨l', hl', hwl'⟩
          rcases List.mem_map.mp hl' with ⟨topic, _, rfl⟩
          by_cases htop : topic = ""
          · rw [if_pos htop] at hwl'
            exact absurd hwl' (List.not_mem_nil _)
          · rw [if_neg htop] at hwl'
            rcases List.mem_cons.mp hwl' with rfl | hwl'
            · exact ⟨topic, rfl⟩
            · rcases List.mem_singleton.mp hwl' with rfl
              exact ⟨topic, rfl⟩
        · rcases List.mem_singleton.mp hwl with rfl
          trivial
  · intro cid data w hw
    unfold save_graph_data at hw
    rcases List.mem_append.mp hw with hw | hw
    · rcases List.mem_flatten.mp hw with ⟨l, hl, hwl⟩
      rcases List.mem_map.mp hl with ⟨e, _, rfl⟩
      rcases List.mem_cons.mp hwl with rfl | hwl
      · exact ⟨e.name, rfl⟩
      · rcases List.mem_singleton.mp hwl with rfl
        exact ⟨e.name, rfl⟩
    · rcases List.mem_flatten.mp hw with ⟨l, hl, hwl⟩
      rcases List.mem_map.mp hl with ⟨r, _, rfl⟩
      rcases List.mem_cons.mp hwl with rfl | hwl
      · exact ⟨r.head, rfl⟩
      · rcases List.mem_cons.mp hwl with rfl | hwl
        · exact ⟨r.tail, rfl⟩
        · rcases List.mem_singleton.mp hwl with rfl
          exact ⟨⟨r.head, rfl⟩, ⟨r.tail, rfl⟩⟩

/-- Witness for C2: two names differing in case and punctuation normalize
alike and receive the same canonical id. -/
theorem entity_writes_canonical_witness :
    sanitize_id "Apple Inc." = sanitize_id "APPLE-INC." :=
  entity_writes_canonical.1 "Apple Inc." "APPLE-INC." (by decide)

theorem pageWrites_chunk_count (summ : String → Except String DocSummaryResult)
    (fidx : Nat) (docId : String) :
    ∀ pages i, (pageWrites summ fidx docId i pages).countP isCreateChunk = pages.length := by
  intro pages
  induction pages with
  | nil => intro i; rfl
  | cons txt rest ih =>
      intro i
      simp only [pageWrites, List.countP_cons, ih (i + 1)]
      rfl

theorem fileWrites_chunk_count (summ : String → Except String DocSummaryResult)
    (extract : String → Except String (List String))
    (sessionId : String) (fidx : Nat) (filename : String) :
    (fileWrites summ extract sessionId fidx filename).countP isCreateChunk
      = pageCount extract filename := by
  unfold fileWrites pageCount
  cases extract filename with
  | error e => rfl
  | ok pages =>
      simp only []
      by_cases hp : pages.isEmpty
      · rw [if_pos hp, if_pos hp]; rfl
      · rw [if_neg hp, if_neg hp]
        simp only [List.countP_cons, pageWrites_chunk_count]
        rfl

theorem filesWrites_chunk_count (summ : String → Except String DocSummaryResult)
    (extract : String → Except String (List String)) (sessionId : String) :
    ∀ (fs : List String) (fidx : Nat),
      (filesWrites summ extract sessionId fidx fs).countP isCreateChunk
        = (fs.map (pageCount extract)).sum := by
  intro fs
  induction fs with
  | nil => intro fidx; rfl
  | cons f rest ih =>
      intro fidx
      simp only [filesWrites, List.countP_append, List.map_cons, List.sum_cons,
        fileWrites_chunk_count, ih (fidx + 1)]

/-- The claim C6: Stage 1 isolates per-file and per-unit failures. For any
extraction oracle and any summarization oracle — including ones that fail
on every call — as soon as at least one pdf file is present the command
returns `Ok` (never an error caused by a failed file or unit); the files
counted as processed are exactly those whose extraction succeeds with
pages, files after a failed file are still processed, and every page of
every good file yields its Chunk write even when its summarization call
failed (the default result is substituted). -/
theorem ingest_documents_isolation (summ : String → Except String DocSummaryResult)
    (extract : String → Except String (List String))
    (path : String) (files : List String)
    (hne : files.filter hasPdfExt ≠ []) :
    (ingest_documents summ extract path files).2
      = Except.ok (Stage1Result.processed ((files.filter hasPdfExt).countP (goodFile extract)))
    ∧ ((ingest_documents summ extract path files).1).countP isCreateChunk
      = ((files.filter hasPdfExt).map (pageCount extract)).sum := by
  have hlen : ¬ (files.filter hasPdfExt).length = 0 := by
    intro h
    exact hne (List.length_eq_zero.mp h)
  unfold ingest_documents
  rw [if_neg hlen]
  refine ⟨rfl, ?_⟩
  simp only [List.countP_cons, filesWrites_chunk_count]
  rfl

/-- Witness for C6: a pdf whose extraction fails, a pdf whose extraction
succeeds, a non-pdf entry, and an LLM oracle that fails on every call —
the command still returns Ok with one processed file and two chunk
writes. -/
theorem ingest_documents_isolation_witness :
    (ingest_documents (fun _ => Except.error "llm down")
        (fun n => if n = "bad.pdf" then Except.error "boom" else Except.ok ["p1", "p2"])
        "/docs" ["bad.pdf", "good.pdf", "skip.txt"]).2
      = Except.ok (Stage1Result.processed 1)
    ∧ ((ingest_documents (fun _ => Except.error "llm down")
        (fun n => if n = "bad.pdf" then Except.error "boom" else Except.ok ["p1", "p2"])
        "/docs" ["bad.pdf", "good.pdf", "skip.txt"]).1).countP isCreateChunk = 2 := by
  have h := ingest_documents_isolation (fun _ => Except.error "llm down")
    (fun n => if n = "bad.pdf" then Except.error "boom" else Except.ok ["p1", "p2"])
    "/docs" ["bad.pdf", "good.pdf", "skip.txt"] (by decide)
  exact h

/-- The claim C10: on a directory whose scan yields no file with the `pdf`
extension, Stage 1 returns the error `"No PDF files found."` and performs
no store write at all — in particular no Session/event node is created,
because the emptiness check precedes the session creation. -/
theorem ingest_documents_no_pdf (summ : String → Except String DocSummaryResult)
    (extract : String → Except String (List String))
    (path : String) (files : List String)
    (h : files.filter hasPdfExt = []) :
    ingest_documents summ extract path files = ([], Except.error "No PDF files found.") := by
  unfold ingest_documents
  rw [h]
  rfl

/-- Witness for C10 at a directory with two non-pdf entries. -/
theorem ingest_documents_no_pdf_witness :
    ingest_documents (fun _ => Except.error "llm down") (fun _ => Except.ok ["p"])
        "/docs" ["notes.txt", "readme"]
      = ([], Except.error "No PDF files found.") :=
  ingest_documents_no_pdf (fun _ => Except.error "llm down") (fun _ => Except.ok ["p"])
    "/docs" ["notes.txt", "readme"] (by decide)

/-- Counterexample to the claim C7 as stated: there is no `"knowledge"`
view mode in the code, so `fetch_graph_data` with view mode `"knowledge"`
returns the full projection — here one Document node, one Chunk node and
two unlabelled (`contains`/`mentions`) links besides the Entity node and
the `related_to` link. -/
theorem fetch_graph_data_cex :
    ((fetch_graph_data
        ⟨[⟨"document:d1", "f.pdf"⟩], [⟨"chunk:c1", 1, "T", "body"⟩],
         [⟨"entity:e1", "E", "Keyword", "d"⟩], [⟨"document:d1", "chunk:c1"⟩],
         [⟨"chunk:c1", "entity:e1"⟩], [⟨"entity:e1", "entity:e1", "rel"⟩]⟩
        "knowledge").nodes.countP (fun n => n.group == "chunk")) = 1
    ∧ ((fetch_graph_data
        ⟨[⟨"document:d1", "f.pdf"⟩], [⟨"chunk:c1", 1, "T", "body"⟩],
         [⟨"entity:e1", "E", "Keyword", "d"⟩], [⟨"document:d1", "chunk:c1"⟩],
         [⟨"chunk:c1", "entity:e1"⟩], [⟨"entity:e1", "entity:e1", "rel"⟩]⟩
        "knowledge").nodes.countP (fun n => n.group == "document")) = 1
    ∧ ((fetch_graph_data
        ⟨[⟨"document:d1", "f.pdf"⟩], [⟨"chunk:c1", 1, "T", "body"⟩],
         [⟨"entity:e1", "E", "Keyword", "d"⟩], [⟨"document:d1", "chunk:c1"⟩],
         [⟨"chunk:c1", "entity:e1"⟩], [⟨"entity:e1", "entity:e1", "rel"⟩]⟩
        "knowledge").links.countP (fun l => l.label.isNone)) = 2 := by
  refine ⟨by decide, by decide, by decide⟩

/-- The claim C7, amended: the restricted mode of the code is
`"semantic"`, not `"knowledge"`, and it keeps Document nodes. For every
store state: view mode `"semantic"` returns exactly the Document and
Entity nodes and only the labelled `related_to` links (no Chunk nodes, no
`contains`/`mentions` links), while any other view mode — `"knowledge"`
and `"all"` included — returns the full projection. -/
theorem fetch_graph_data_modes (st : StoreView) :
    (fetch_graph_data st "semantic").nodes = docNodes st ++ entityNodes st
    ∧ (fetch_graph_data st "semantic").links = relatedLinks st.relatedEdges
    ∧ (∀ n ∈ (fetch_graph_data st "semantic").nodes,
        n.group = "document" ∨ n.group = "entity")
    ∧ (∀ l ∈ (fetch_graph_data st "semantic").links, l.label.isSome = true)
    ∧ (fetch_graph_data st "all").nodes = docNodes st ++ chunkNodes st ++ entityNodes st
    ∧ (fetch_graph_data st "all").links
        = edgeLinks st.containsEdges ++ edgeLinks st.mentionsEdges
          ++ relatedLinks st.relatedEdges
    ∧ fetch_graph_data st "knowledge" = fetch_graph_data st "all" := by
  have hsem : ¬ ("semantic" ≠ "semantic") := by simp
  have hall : ("all" : String) ≠ "semantic" := by decide
  have hknow : ("knowledge" : String) ≠ "semantic" := by decide
  refine ⟨?_, ?_, ?_, ?_, ?_, ?_, ?_⟩
  · show docNodes st ++ (if ("semantic" : String) ≠ "semantic" then chunkNodes st else [])
        ++ entityNodes st = _
    rw [if_neg hsem, List.append_nil]
  · show (if ("semantic" : String) ≠ "semantic" then _ else []) ++ relatedLinks st.relatedEdges = _
    rw [if_neg hsem, List.nil_append]
  · intro n hn
    have : n ∈ docNodes st ++ (if ("semantic" : String) ≠ "semantic" then chunkNodes st else [])
        ++ entityNodes st := hn
    rw [if_neg hsem, List.append_nil] at this
    rcases List.mem_append.mp this with h | h
    · left
      rcases List.mem_filterMap.mp h with ⟨d, _, hd⟩
      by_cases hid : d.id = ""
      · rw [if_pos hid] at hd; cases hd
      · rw [if_neg hid] at hd; cases hd; rfl
    · right
      rcases List.mem_filterMap.mp h with ⟨e, _, he⟩
      by_cases hid : e.id = ""
      · rw [if_pos hid] at he; cases he
      · rw [if_neg hid] at he; cases he; rfl
  · intro l hl
    have : l ∈ (if ("semantic" : String) ≠ "semantic"
        then edgeLinks st.containsEdges ++ edgeLinks st.mentionsEdges else [])
        ++ relatedLinks st.relatedEdges := hl
    rw [if_neg hsem, List.nil_append] at this
    rcases List.mem_filterMap.mp this with ⟨r, _, hr⟩
    by_cases hid : r.source = "" ∨ r.target = ""
    · rw [if_pos hid] at hr; cases hr
    · rw [if_neg hid] at hr; cases hr; rfl
  · show docNodes st ++ (if ("all" : String) ≠ "semantic" then chunkNodes st else [])
        ++ entityNodes st = _
    rw [if_pos hall]
  · show (if ("all" : String) ≠ "semantic" then _ else []) ++ relatedLinks st.relatedEdges = _
    rw [if_pos hall]
  · show GraphResponse.mk _ _ = GraphResponse.mk _ _
    rw [if_pos hknow, if_pos hknow, if_pos hall, if_pos hall]

/-- Witness for the amended C7: in semantic mode, a concrete returned node
is a Document-or-Entity node. -/
theorem fetch_graph_data_modes_witness :
    (GraphNodeRes.mk "document:d1" "document" "f.pdf" (some "Original PDF Document")).group
        = "document"
    ∨ (GraphNodeRes.mk "document:d1" "document" "f.pdf" (some "Original PDF Document")).group
        = "entity" :=
  (fetch_graph_data_modes
      ⟨[⟨"document:d1", "f.pdf"⟩], [⟨"chunk:c1", 1, "T", "body"⟩],
       [⟨"entity:e1", "E", "Keyword", "d"⟩], [⟨"document:d1", "chunk:c1"⟩],
       [⟨"chunk:c1", "entity:e1"⟩],
       [⟨"entity:e1", "entity:e1", "rel"⟩]⟩).2.2.1
    (GraphNodeRes.mk "document:d1" "document" "f.pdf" (some "Original PDF Document"))
    (by decide)
